import Mathlib

/-
Verification of the numeric core of the elgamal repository (src/elgamal.js).

The JavaScript functions are shallowly embedded as Lean functions over the
integers.  JavaScript's remainder operator on integers is truncated division
remainder, modelled by Int.tmod; Math.floor division by a positive divisor is
floor division, modelled by Int.ediv.  Loops are modelled by structurally
recursive functions; the loops of gcd and negativeModulo can fail to
terminate, so they carry an explicit step budget that is provably large
enough on every terminating run, and gcd reports a run that exceeds every
budget as none.  Math.sqrt on an exact nonnegative integer input followed by
Math.floor is modelled by Nat.sqrt.  Exponent arguments are natural numbers:
every call site in the source passes a nonnegative exponent, and the loop of
fastModularExponentiation returns immediately unless the exponent is
positive.
-/

namespace Elgamal

/-- Loop of fastModularExponentiation (src/elgamal.js lines 13-24).  The
first argument is a step budget.  Since the exponent at least halves on
every iteration, a budget equal to the initial exponent is always enough. -/
def fmeAux (modulo : Int) : Nat → Nat → Int → Int → Int
  | 0, _, result, _ => result
  | fuel + 1, exponent, result, x =>
    if exponent = 0 then result
    else
      fmeAux modulo fuel (exponent / 2)
        (if exponent % 2 = 1 then (result * x).tmod modulo else result)
        ((x * x).tmod modulo)

/-- fastModularExponentiation (src/elgamal.js lines 8-26): square-and-multiply
with every product reduced by the JavaScript remainder operator. -/
def fastModularExponentiation (base : Int) (exponent : Nat) (modulo : Int) :
    Int :=
  fmeAux modulo exponent exponent 1 (base.tmod modulo)

/-- verify (src/elgamal.js lines 38-47): the ElGamal verification equation.
v2 reduces the product of the two modular exponentiations through one more
exponentiation with exponent 1. -/
def verify (alpha beta modulo : Int) (m signature1 signature2 : Nat) : Bool :=
  let v1 := fastModularExponentiation alpha m modulo
  let v2 := fastModularExponentiation
    (fastModularExponentiation beta signature1 modulo *
      fastModularExponentiation (signature1 : Int) signature2 modulo)
    1 modulo
  v1 == v2

/-- The key stored for giant step i in discreteLogarithm
(src/elgamal.js line 61). -/
def giantStepKey (alpha modulo : Int) (n i : Nat) : Int :=
  fastModularExponentiation alpha (i * n) modulo

/-- Updating the sparse array value[k] = v used by discreteLogarithm. -/
def tableInsert (t : Int → Option Nat) (k : Int) (v : Nat) :
    Int → Option Nat :=
  fun q => if q = k then some v else t q

/-- The descending loop for (let i = n; i >= 1; i--) of discreteLogarithm
(src/elgamal.js lines 60-62): index n is written first and index 1 last, so
on a key collision the smallest colliding index is the one that remains. -/
def giantLoop (alpha modulo : Int) (n : Nat) :
    Nat → (Int → Option Nat) → (Int → Option Nat)
  | 0, t => t
  | i + 1, t =>
    giantLoop alpha modulo n i
      (tableInsert t (giantStepKey alpha modulo n (i + 1)) (i + 1))

/-- The completed giant-step table of discreteLogarithm. -/
def discreteLogTable (alpha modulo : Int) (n : Nat) : Int → Option Nat :=
  giantLoop alpha modulo n n (fun _ => none)

/-- The baby-step value alpha^i * beta mod p scanned by discreteLogarithm
(src/elgamal.js line 65). -/
def babyStepKey (alpha beta modulo : Int) (i : Nat) : Int :=
  (fastModularExponentiation alpha i modulo * beta).tmod modulo

/-- The ascending scan for (let i = 0; i < n; i++) of discreteLogarithm
(src/elgamal.js lines 64-72): the first table hit whose candidate answer is
below the modulus is returned; exhaustion yields -1.  An absent entry reads
as 0 and fails the positivity test, mirroring that undefined compares as
false in the condition value[curr] > 0, while every stored index is
positive. -/
def babyLoop (alpha beta modulo : Int) (n : Nat) (t : Int → Option Nat) :
    Nat → Nat → Int
  | 0, _ => -1
  | remaining + 1, i =>
    let v := (t (babyStepKey alpha beta modulo i)).getD 0
    if 0 < v then
      if (v : Int) * (n : Int) - (i : Int) < modulo then
        (v : Int) * (n : Int) - (i : Int)
      else babyLoop alpha beta modulo n t remaining (i + 1)
    else babyLoop alpha beta modulo n t remaining (i + 1)

/-- Search for the largest candidate j at most k with j * j at most p. -/
def sqrtAux (p : Nat) : Nat → Nat
  | 0 => 0
  | k + 1 => if (k + 1) * (k + 1) ≤ p then k + 1 else sqrtAux p k

/-- Math.floor(Math.sqrt(p)) for an exact nonnegative integer p: the largest
j with j * j at most p. -/
def intSqrt (p : Nat) : Nat :=
  sqrtAux p p

/-- discreteLogarithm (src/elgamal.js lines 56-75), baby-step giant-step with
n = Math.floor(Math.sqrt(modulo) + 1). -/
def discreteLogarithm (alpha beta modulo : Int) : Int :=
  let n := intSqrt modulo.toNat + 1
  babyLoop alpha beta modulo n (discreteLogTable alpha modulo n) n 0

/-- Loop of negativeModulo (src/elgamal.js lines 84-89): i runs -1, -2, ...
while i < modulo, stopping at the first i with modulo * i < value.  The
first argument is a step budget; on the inputs the source reaches (negative
value, positive modulo) the break always happens within the budget chosen
below. -/
def negLoop (value modulo : Int) : Nat → Int → Int
  | 0, i => i
  | fuel + 1, i =>
    if i < modulo then
      if modulo * i < value then i else negLoop value modulo fuel (i - 1)
    else i

/-- negativeModulo (src/elgamal.js lines 83-92). -/
def negativeModulo (value modulo : Int) : Int :=
  -1 * (modulo * negLoop value modulo (value.natAbs + 2) (-1)) + value

/-- Loop of inverseModulo (src/elgamal.js lines 102-106): i scans 0, 1, ...
and the loop runs while i < modulo, i.e. exactly modulo.toNat times; when the
scan is exhausted the function returns 1 (src/elgamal.js line 108). -/
def invLoop (a modulo : Int) : Nat → Nat → Int
  | 0, _ => 1
  | fuel + 1, i =>
    if (a * (i : Int)).tmod modulo = 1 then (i : Int)
    else invLoop a modulo fuel (i + 1)

/-- inverseModulo (src/elgamal.js lines 100-109): brute-force search for a
multiplicative inverse, falling back to 1 when none is found. -/
def inverseModulo (a modulo : Int) : Int :=
  invLoop (a.tmod modulo) modulo modulo.toNat 0

/-- Loop of gcd (src/elgamal.js lines 118-124), subtraction form of the
Euclidean algorithm.  The state does not change when exactly one operand is
zero, so the while loop diverges there; the step budget makes this
observable: none is the outcome of a run that exceeds every budget. -/
def gcdAux : Nat → Int → Int → Option Int
  | 0, _, _ => none
  | fuel + 1, number1, number2 =>
    if number1 = number2 then some number1
    else if number1 > number2 then gcdAux fuel (number1 - number2) number2
    else gcdAux fuel number1 (number2 - number1)

/-- gcd (src/elgamal.js lines 117-127).  For positive inputs the subtraction
loop terminates within number1 + number2 steps, so the chosen budget is
sufficient; none therefore reports exactly the diverging runs. -/
def gcd (number1 number2 : Int) : Option Int :=
  gcdAux (number1.toNat + number2.toNat + 1) number1 number2

/-- The candidate loop of calculateK (src/elgamal.js lines 155-160): for i
from 1 to c the candidate kt + i * modulo2 is assigned to k, and the loop
breaks on the first candidate with alpha^k mod p = signature1; when none
passes, k keeps the last assigned candidate. -/
def kLoop (alpha modulo signature1 kt modulo2 : Int) :
    Nat → Nat → Int → Int
  | 0, _, k => k
  | remaining + 1, i, _ =>
    let k := kt + (i : Int) * modulo2
    if fastModularExponentiation alpha k.toNat modulo = signature1 then k
    else kLoop alpha modulo signature1 kt modulo2 remaining (i + 1) k

/-- calculateK (src/elgamal.js lines 139-164).  The result is none exactly
when the call to gcd diverges. -/
def calculateK (alpha beta modulo m signature1 signature2 secretKey : Int) :
    Option Int :=
  let aux :=
    if m - secretKey * signature1 < 0 then
      negativeModulo (m - secretKey * signature1) (modulo - 1)
    else
      fastModularExponentiation (m - secretKey * signature1) 1 (modulo - 1)
  match gcd signature2 (modulo - 1) with
  | none => none
  | some c =>
    if c = 1 then
      some (fastModularExponentiation
        (inverseModulo signature2 (modulo - 1) * (m - secretKey * signature1))
        1 (modulo - 1))
    else
      let modulo2 := (modulo - 1).ediv c
      let signature2Inverse := inverseModulo (signature2.ediv c) modulo2
      let kt := fastModularExponentiation
        (aux.ediv c * signature2Inverse) 1 modulo2
      some (kLoop alpha modulo signature1 kt modulo2 c.toNat 1 0)

/-! ### Properties of fastModularExponentiation -/

/-- Reducing the base before a power does not change the residue. -/
theorem int_emod_pow (a n : Int) (b : Nat) : (a % n) ^ b % n = a ^ b % n := by
  have h : Int.ModEq n (a % n) a := Int.emod_emod_of_dvd a dvd_rfl
  exact h.pow b

theorem fmeAux_zero (mo : Int) (fuel : Nat) (r x : Int) :
    fmeAux mo fuel 0 r x = r := by
  cases fuel <;> rfl

theorem fmeAux_spec (mo : Int) (hmo : 1 ≤ mo) :
    ∀ (fuel e : Nat) (r x : Int), 1 ≤ e → e ≤ fuel → 0 ≤ r → 0 ≤ x →
      fmeAux mo fuel e r x = r * x ^ e % mo := by
  intro fuel
  induction fuel with
  | zero => intro e r x he hf _ _; omega
  | succ fuel ih =>
    intro e r x he _ hr hx
    have hmo0 : mo ≠ 0 := by omega
    have hne : ¬e = 0 := by omega
    show (if e = 0 then r else _) = _
    rw [if_neg hne]
    by_cases h2 : e / 2 = 0
    · have he1 : e = 1 := by omega
      subst he1
      rw [if_pos (by norm_num : (1 : Nat) % 2 = 1),
        show (1 : Nat) / 2 = 0 from rfl, fmeAux_zero,
        Int.tmod_eq_emod (by positivity) (by omega), pow_one]
    · have he2 : 2 ≤ e := by omega
      have hfe : e / 2 ≤ fuel := by omega
      have hxx : (0 : Int) ≤ (x * x).tmod mo := by
        rw [Int.tmod_eq_emod (by positivity) (by omega)]
        exact Int.emod_nonneg _ hmo0
      by_cases hbit : e % 2 = 1
      · have heq : e = 2 * (e / 2) + 1 := by omega
        rw [if_pos hbit]
        have hrx : (0 : Int) ≤ (r * x).tmod mo := by
          rw [Int.tmod_eq_emod (by positivity) (by omega)]
          exact Int.emod_nonneg _ hmo0
        rw [ih (e / 2) _ _ (by omega) hfe hrx hxx]
        rw [Int.tmod_eq_emod (by positivity) (by omega),
          Int.tmod_eq_emod (by positivity) (by omega)]
        rw [Int.mul_emod (r * x % mo) _, Int.emod_emod_of_dvd _ dvd_rfl,
          int_emod_pow, ← Int.mul_emod]
        congr 1
        conv_rhs => rw [heq]
        ring
      · have heq : e = 2 * (e / 2) := by omega
        rw [if_neg hbit]
        rw [ih (e / 2) _ _ (by omega) hfe hr hxx]
        rw [Int.tmod_eq_emod (by positivity) (by omega)]
        rw [Int.mul_emod r _, int_emod_pow, ← Int.mul_emod]
        congr 1
        conv_rhs => rw [heq]
        ring

/-- For a nonnegative base, a positive modulus and a positive exponent the
square-and-multiply loop computes the canonical residue of the power. -/
theorem fme_eq_pow (base : Int) (e : Nat) (mo : Int) (hb : 0 ≤ base)
    (hmo : 1 ≤ mo) (he : 1 ≤ e) :
    fastModularExponentiation base e mo = base ^ e % mo := by
  unfold fastModularExponentiation
  rw [Int.tmod_eq_emod hb (by omega)]
  rw [fmeAux_spec mo hmo e e 1 (base % mo) he le_rfl (by norm_num)
    (Int.emod_nonneg _ (by omega))]
  rw [one_mul, int_emod_pow]

theorem fme_zero (base mo : Int) :
    fastModularExponentiation base 0 mo = 1 := rfl

/-- With a modulus of at least two, the zero-exponent case also agrees with
the canonical residue, so the equation holds for every exponent. -/
theorem fme_eq_pow' (base : Int) (e : Nat) (mo : Int) (hb : 0 ≤ base)
    (hmo : 2 ≤ mo) :
    fastModularExponentiation base e mo = base ^ e % mo := by
  cases e with
  | zero =>
    rw [fme_zero, pow_zero, Int.emod_eq_of_lt (by norm_num) (by omega)]
  | succ k => exact fme_eq_pow base (k + 1) mo hb (by omega) (by omega)

theorem fme_one (base mo : Int) (hb : 0 ≤ base) (hmo : 1 ≤ mo) :
    fastModularExponentiation base 1 mo = base % mo := by
  rw [fme_eq_pow base 1 mo hb hmo le_rfl, pow_one]

/-- Cast form: on natural-number inputs the function returns the natural
residue of the power. -/
theorem fme_natCast (b e m : Nat) (hm : 2 ≤ m) :
    fastModularExponentiation (b : Int) e (m : Int) = ((b ^ e % m : Nat) : Int) := by
  rw [fme_eq_pow' _ _ _ (by positivity) (by exact_mod_cast hm)]
  rw [Int.natCast_mod, Nat.cast_pow]

/-! ### Claim C6: contract of fastModularExponentiation -/

/-- C6 (amended): for nonnegative base, nonnegative exponent and positive
modulus the function returns base ^ exponent mod modulo, a value in
[0, modulo), except in the single corner exponent = 0 and modulo = 1, where
it returns 1 rather than the residue 0.  The exception is forced by the
counterexample below: the loop is never entered when the exponent is 0, so
the initial accumulator 1 is returned unreduced. -/
theorem fastModularExponentiation_spec (base : Int) (e : Nat) (mo : Int)
    (hb : 0 ≤ base) (hmo : 1 ≤ mo) (h : e ≠ 0 ∨ 2 ≤ mo) :
    fastModularExponentiation base e mo = base ^ e % mo ∧
    0 ≤ fastModularExponentiation base e mo ∧
    fastModularExponentiation base e mo < mo := by
  have heq : fastModularExponentiation base e mo = base ^ e % mo := by
    rcases h with h | h
    · exact fme_eq_pow base e mo hb hmo (by omega)
    · exact fme_eq_pow' base e mo hb h
  refine ⟨heq, ?_, ?_⟩
  · rw [heq]; exact Int.emod_nonneg _ (by omega)
  · rw [heq]; exact Int.emod_lt_of_pos _ (by omega)

/-- C6 witness: the amended contract evaluated at base 3, exponent 4,
modulus 5. -/
theorem fastModularExponentiation_spec_witness :
    (0 : Int) ≤ 3 ∧ (1 : Int) ≤ 5 ∧
    (fastModularExponentiation 3 4 5 = 3 ^ 4 % 5 ∧
      0 ≤ fastModularExponentiation 3 4 5 ∧
      fastModularExponentiation 3 4 5 < 5) :=
  ⟨by decide, by decide,
    fastModularExponentiation_spec 3 4 5 (by decide) (by decide)
      (Or.inl (by decide))⟩

/-- C6 counterexample: with exponent 0 and modulus 1 the function returns 1,
while the claim demands 1 mod 1 = 0. -/
theorem fastModularExponentiation_zero_exponent_counterexample :
    fastModularExponentiation 0 0 1 = 1 ∧ (1 : Int) % 1 = 0 := by decide

/-! ### Claim C1: the verification equation -/

/-- C1 (amended): for nonnegative alpha and beta (and p at least 2,
exponents nonnegative), verify returns true exactly when
alpha ^ m mod p equals the product of the two modular exponentiations
reduced mod p exactly once.  The restriction to nonnegative alpha and beta
is forced by the counterexample below: on negative bases the JavaScript
remainder produces negative residues, and the comparison then differs from
the one between canonical residues. -/
theorem verify_iff (alpha beta p : Int) (m s1 s2 : Nat)
    (ha : 0 ≤ alpha) (hb : 0 ≤ beta) (hp : 2 ≤ p) :
    verify alpha beta p m s1 s2 = true ↔
      alpha ^ m % p = (beta ^ s1 % p) * ((s1 : Int) ^ s2 % p) % p := by
  have hp1 : (1 : Int) ≤ p := by omega
  have h1 := fme_eq_pow' beta s1 p hb hp
  have h2 := fme_eq_pow' (s1 : Int) s2 p (Int.natCast_nonneg s1) hp
  have hmul : 0 ≤ fastModularExponentiation beta s1 p *
      fastModularExponentiation (s1 : Int) s2 p := by
    rw [h1, h2]
    exact mul_nonneg (Int.emod_nonneg _ (by omega)) (Int.emod_nonneg _ (by omega))
  simp only [verify]
  rw [beq_iff_eq, fme_eq_pow' alpha m p ha hp, fme_one _ p hmul hp1, h1, h2]

/-- C1 witness: the amended equivalence evaluated at
(alpha, beta, p, m, s1, s2) = (2, 4, 5, 1, 1, 0). -/
theorem verify_iff_witness :
    (0 : Int) ≤ 2 ∧ (0 : Int) ≤ 4 ∧ (2 : Int) ≤ 5 ∧
    (verify 2 4 5 1 1 0 = true ↔
      (2 : Int) ^ 1 % 5 = ((4 : Int) ^ 1 % 5) * ((1 : Int) ^ 0 % 5) % 5) :=
  ⟨by decide, by decide, by decide,
    verify_iff 2 4 5 1 1 0 (by decide) (by decide) (by decide)⟩

/-- C1 counterexample: at alpha = -1 the mathematical residues on both sides
of the verification equation agree, yet verify returns false, because the
code compares the truncated remainder -1 with the canonical residue 4. -/
theorem verify_negative_base_counterexample :
    verify (-1) 4 5 1 1 0 = false ∧
    (-1 : Int) ^ 1 % 5 = ((4 : Int) ^ 1 % 5) * ((1 : Int) ^ 0 % 5) % 5 := by
  decide

/-! ### Properties of intSqrt -/

theorem sqrtAux_ge (p : Nat) :
    ∀ k j, j ≤ k → j * j ≤ p → j ≤ sqrtAux p k := by
  intro k
  induction k with
  | zero => intro j hj _; simpa [sqrtAux] using hj
  | succ k ih =>
    intro j hj hjp
    show j ≤ if (k + 1) * (k + 1) ≤ p then k + 1 else sqrtAux p k
    by_cases h : (k + 1) * (k + 1) ≤ p
    · rw [if_pos h]; exact hj
    · rw [if_neg h]
      have hjk : j ≤ k := by
        rcases Nat.lt_or_ge j (k + 1) with h1 | h1
        · omega
        · exact absurd (Nat.le_trans (Nat.mul_le_mul h1 h1) hjp) h
      exact ih j hjk hjp

/-- The square of intSqrt p + 1 exceeds p, which is the only fact about the
giant-step count n the verification needs. -/
theorem lt_intSqrt_succ_sq (p : Nat) :
    p < (intSqrt p + 1) * (intSqrt p + 1) := by
  by_contra h
  push_neg at h
  have h1 : intSqrt p + 1 ≤ p :=
    Nat.le_trans (Nat.le_mul_of_pos_left _ (by omega)) h
  have h2 := sqrtAux_ge p p (intSqrt p + 1) h1 h
  have h3 : sqrtAux p p = intSqrt p := rfl
  omega

/-! ### Properties of negativeModulo -/

theorem negLoop_eq (value modulo : Int) (hmo : 1 ≤ modulo) :
    ∀ (fuel : Nat) (i : Int), (value - 1) / modulo ≤ i → i ≤ -1 →
      (i - (value - 1) / modulo).toNat < fuel →
      negLoop value modulo fuel i = (value - 1) / modulo := by
  have hcond : ∀ i : Int, modulo * i < value ↔ i ≤ (value - 1) / modulo := by
    intro i
    rw [Int.le_ediv_iff_mul_le (by omega : (0 : Int) < modulo)]
    constructor <;> intro h <;> nlinarith
  intro fuel
  induction fuel with
  | zero => intro i _ _ h; omega
  | succ fuel ih =>
    intro i hlo hhi hfuel
    show (if i < modulo then _ else _) = _
    rw [if_pos (by omega)]
    by_cases hbreak : modulo * i < value
    · rw [if_pos hbreak]
      have := (hcond i).mp hbreak
      omega
    · rw [if_neg hbreak]
      have hi : ¬ i ≤ (value - 1) / modulo := fun h => hbreak ((hcond i).mpr h)
      exact ih (i - 1) (by omega) (by omega) (by omega)

theorem negLoop_result (value modulo : Int) (hv : value < 0) (hmo : 1 ≤ modulo) :
    negLoop value modulo (value.natAbs + 2) (-1) = (value - 1) / modulo := by
  have htop : ¬ (0 : Int) ≤ (value - 1) / modulo := by
    intro h
    have := (Int.le_ediv_iff_mul_le (by omega : (0 : Int) < modulo)).mp h
    omega
  have hbot : value - 1 ≤ (value - 1) / modulo := by
    refine (Int.le_ediv_iff_mul_le (by omega : (0 : Int) < modulo)).mpr ?_
    nlinarith
  exact negLoop_eq value modulo hmo _ (-1) (by omega) (by omega) (by omega)

theorem int_shift_ediv (modulo q r : Int) (hmo : modulo ≠ 0) (h0 : 0 ≤ r)
    (h1 : r < modulo) : (modulo * q + r) / modulo = q := by
  rw [add_comm, mul_comm, Int.add_mul_ediv_right r q hmo,
    Int.ediv_eq_zero_of_lt h0 h1, zero_add]

/-! ### Claim C7: negativeModulo -/

/-- C7 (amended): for negative value and positive modulo, negativeModulo
returns the canonical representative of value in [0, modulo) whenever value
is not an exact multiple of modulo; when value is an exact negative multiple
of modulo it returns modulo itself instead of the representative 0, as the
counterexample below forces, because the strict comparison modulo * i <
value skips the multiplier that would give remainder 0. -/
theorem negativeModulo_spec (value modulo : Int) (hv : value < 0)
    (hmo : 1 ≤ modulo) :
    (¬ modulo ∣ value →
      negativeModulo value modulo = value % modulo ∧
      0 ≤ negativeModulo value modulo ∧ negativeModulo value modulo < modulo) ∧
    (modulo ∣ value → negativeModulo value modulo = modulo) := by
  have hres : negativeModulo value modulo =
      -1 * (modulo * ((value - 1) / modulo)) + value := by
    unfold negativeModulo
    rw [negLoop_result value modulo hv hmo]
  constructor
  · intro hnd
    have hr0 : value % modulo ≠ 0 := fun h => hnd (Int.dvd_of_emod_eq_zero h)
    have hdecomp := Int.emod_add_ediv value modulo
    have hrlo : 0 ≤ value % modulo := Int.emod_nonneg _ (by omega)
    have hrhi : value % modulo < modulo := Int.emod_lt_of_pos _ (by omega)
    have hshift : (value - 1) / modulo = value / modulo := by
      have hv1 : value - 1 = modulo * (value / modulo) + (value % modulo - 1) := by
        omega
      rw [hv1, int_shift_ediv modulo _ _ (by omega) (by omega) (by omega)]
    refine ⟨?_, ?_, ?_⟩
    · rw [hres, hshift]; omega
    · rw [hres, hshift]; omega
    · rw [hres, hshift]; omega
  · intro hd
    obtain ⟨q, hq⟩ := hd
    have hshift : (value - 1) / modulo = q - 1 := by
      have hv1 : value - 1 = modulo * (q - 1) + (modulo - 1) := by
        rw [hq]; ring
      rw [hv1, int_shift_ediv modulo _ _ (by omega) (by omega) (by omega)]
    rw [hres, hshift, hq]; ring

/-- C7 witness: the amended statement evaluated at value -7, modulo 5: the
result is the canonical residue 3. -/
theorem negativeModulo_spec_witness :
    (-7 : Int) < 0 ∧ (1 : Int) ≤ 5 ∧
    ((¬ (5 : Int) ∣ -7 →
      negativeModulo (-7) 5 = (-7) % 5 ∧
      0 ≤ negativeModulo (-7) 5 ∧ negativeModulo (-7) 5 < 5) ∧
    ((5 : Int) ∣ -7 → negativeModulo (-7) 5 = 5)) :=
  ⟨by decide, by decide, negativeModulo_spec (-7) 5 (by decide) (by decide)⟩

/-- C7 counterexample: -5 is an exact negative multiple of 5 and the claimed
representative in [0, 5) is 0, but the function returns 5. -/
theorem negativeModulo_multiple_counterexample :
    negativeModulo (-5) 5 = 5 ∧ (-5 : Int) % 5 = 0 := by decide

/-! ### Properties of inverseModulo -/

theorem invLoop_nonneg (a modulo : Int) :
    ∀ (fuel i : Nat), 0 ≤ invLoop a modulo fuel i := by
  intro fuel
  induction fuel with
  | zero => intro i; norm_num [invLoop]
  | succ fuel ih =>
    intro i
    show (0 : Int) ≤ if _ then _ else _
    by_cases h : (a * (i : Int)).tmod modulo = 1
    · rw [if_pos h]; positivity
    · rw [if_neg h]; exact ih (i + 1)

theorem invLoop_found (a modulo : Int) :
    ∀ (fuel i0 j : Nat), i0 ≤ j → j < i0 + fuel →
      (a * (j : Int)).tmod modulo = 1 →
      (∀ j', i0 ≤ j' → j' < j → (a * (j' : Int)).tmod modulo ≠ 1) →
      invLoop a modulo fuel i0 = (j : Int) := by
  intro fuel
  induction fuel with
  | zero => intro i0 j h1 h2 _ _; omega
  | succ fuel ih =>
    intro i0 j h1 h2 hj hmin
    show (if _ then _ else _) = _
    by_cases h : (a * (i0 : Int)).tmod modulo = 1
    · rw [if_pos h]
      rcases Nat.eq_or_lt_of_le h1 with h1 | h1
      · rw [h1]
      · exact absurd h (hmin i0 le_rfl h1)
    · rw [if_neg h]
      have hne : j ≠ i0 := fun he => h (he ▸ hj)
      exact ih (i0 + 1) j (by omega) (by omega) hj
        (fun j' hj1 hj2 => hmin j' (by omega) hj2)

theorem invLoop_none (a modulo : Int) :
    ∀ (fuel i0 : Nat),
      (∀ j, i0 ≤ j → j < i0 + fuel → (a * (j : Int)).tmod modulo ≠ 1) →
      invLoop a modulo fuel i0 = 1 := by
  intro fuel
  induction fuel with
  | zero => intro i0 _; rfl
  | succ fuel ih =>
    intro i0 hnone
    show (if _ then _ else _) = _
    rw [if_neg (hnone i0 le_rfl (by omega))]
    exact ih (i0 + 1) (fun j h1 h2 => hnone j (by omega) (by omega))

/-- The loop condition of inverseModulo on natural-number inputs is the
natural-number statement that j inverts a mod modulo. -/
theorem invCond_iff (a mo j : Nat) (hmo : 1 ≤ mo) :
    (((a : Int).tmod (mo : Int)) * (j : Int)).tmod (mo : Int) = 1 ↔
      a * j % mo = 1 := by
  rw [Int.tmod_eq_emod (Int.natCast_nonneg a) (Int.natCast_nonneg mo),
    ← Int.natCast_mod]
  rw [show ((a % mo : Nat) : Int) * (j : Int) = (((a % mo) * j : Nat) : Int) by
    push_cast; ring]
  rw [Int.tmod_eq_emod (Int.natCast_nonneg _) (Int.natCast_nonneg mo),
    ← Int.natCast_mod, Nat.mod_mul_mod]
  exact Nat.cast_eq_one

/-! ### Claim C5: inverseModulo -/

/-- C5 (amended): for a coprime to modulo the brute-force search returns the
inverse of a, a value in [0, modulo) whose product with a has residue 1;
when no inverse exists the search is exhausted and the function returns the
numeric fallback 1 instead of signalling a NoInverseExists failure, as the
counterexample below forces. -/
theorem inverseModulo_spec (a mo : Nat) (hmo : 2 ≤ mo) :
    (Nat.gcd a mo = 1 →
      0 ≤ inverseModulo (a : Int) (mo : Int) ∧
      inverseModulo (a : Int) (mo : Int) < (mo : Int) ∧
      ((a : Int) * inverseModulo (a : Int) (mo : Int)) % (mo : Int) = 1) ∧
    (Nat.gcd a mo ≠ 1 → inverseModulo (a : Int) (mo : Int) = 1) := by
  have hmo1 : 1 ≤ mo := by omega
  have hunfold : inverseModulo (a : Int) (mo : Int) =
      invLoop ((a : Int).tmod (mo : Int)) (mo : Int) mo 0 := by
    unfold inverseModulo
    rw [Int.toNat_natCast]
  constructor
  · intro hgcd
    obtain ⟨b, hb⟩ :=
      Nat.exists_mul_emod_eq_one_of_coprime hgcd (by omega)
    have hb' : a * (b % mo) % mo = 1 := by
      rw [Nat.mul_mod_mod]; exact hb
    have hex : ∃ j, a * j % mo = 1 := ⟨b % mo, hb'⟩
    set j := Nat.find hex with hjdef
    have hjp : a * j % mo = 1 := Nat.find_spec hex
    have hjlt : j < mo := by
      have := Nat.find_min' hex hb'
      have : j ≤ b % mo := this
      have := Nat.mod_lt b (show 0 < mo by omega)
      omega
    have hres : inverseModulo (a : Int) (mo : Int) = (j : Int) := by
      rw [hunfold]
      refine invLoop_found _ _ mo 0 j (by omega) (by omega)
        ((invCond_iff a mo j hmo1).mpr hjp) ?_
      intro j' _ hj'
      rw [Ne, invCond_iff a mo j' hmo1]
      exact Nat.find_min hex hj'
    refine ⟨by rw [hres]; positivity, by rw [hres]; exact_mod_cast hjlt, ?_⟩
    rw [hres, show ((a : Int) * (j : Int)) = ((a * j : Nat) : Int) by push_cast; ring,
      ← Int.natCast_mod, hjp, Nat.cast_one]
  · intro hgcd
    have hnone : ∀ j : Nat, a * j % mo ≠ 1 := by
      intro j hj
      have hg1 : Nat.gcd a mo ∣ a * j % mo := by
        rw [Nat.dvd_mod_iff (Nat.gcd_dvd_right a mo)]
        exact Dvd.dvd.mul_right (Nat.gcd_dvd_left a mo) j
      rw [hj, Nat.dvd_one] at hg1
      exact hgcd hg1
    rw [hunfold]
    refine invLoop_none _ _ mo 0 (fun j _ _ => ?_)
    rw [Ne, invCond_iff a mo j hmo1]
    exact hnone j

/-- C5 witness: the amended statement evaluated at a = 3, modulo = 4, whose
inverse 3 is found and verified. -/
theorem inverseModulo_spec_witness :
    (2 : Nat) ≤ 4 ∧
    ((Nat.gcd 3 4 = 1 →
      0 ≤ inverseModulo (3 : Int) (4 : Int) ∧
      inverseModulo (3 : Int) (4 : Int) < (4 : Int) ∧
      ((3 : Int) * inverseModulo (3 : Int) (4 : Int)) % (4 : Int) = 1) ∧
    (Nat.gcd 3 4 ≠ 1 → inverseModulo (3 : Int) (4 : Int) = 1)) :=
  ⟨by decide, inverseModulo_spec 3 4 (by decide)⟩

/-- C5 counterexample: 2 has no inverse mod 4 since the gcd is 2, and the
function returns the numeric value 1 instead of failing. -/
theorem inverseModulo_returns_one_counterexample :
    Nat.gcd 2 4 ≠ 1 ∧ inverseModulo (2 : Int) (4 : Int) = 1 := by decide

/-! ### Properties of gcd -/

theorem int_gcd_sub_left (a b : Int) : Int.gcd (a - b) b = Int.gcd a b := by
  refine Nat.dvd_antisymm ?_ ?_
  · have ha : (Int.gcd (a - b) b : Int) ∣ a := by
      have := dvd_add (Int.gcd_dvd_left (a := a - b) (b := b))
        (Int.gcd_dvd_right (a := a - b) (b := b))
      simpa using this
    exact Int.natCast_dvd_natCast.mp
      (Int.dvd_gcd ha (Int.gcd_dvd_right (a := a - b) (b := b)))
  · have hs : (Int.gcd a b : Int) ∣ a - b :=
      dvd_sub (Int.gcd_dvd_left (a := a) (b := b))
        (Int.gcd_dvd_right (a := a) (b := b))
    exact Int.natCast_dvd_natCast.mp
      (Int.dvd_gcd hs (Int.gcd_dvd_right (a := a) (b := b)))

theorem int_gcd_sub_right (a b : Int) : Int.gcd a (b - a) = Int.gcd a b := by
  rw [Int.gcd_comm, int_gcd_sub_left, Int.gcd_comm]

/-- On positive operands the subtraction loop terminates within
number1 + number2 steps and computes the gcd. -/
theorem gcdAux_pos :
    ∀ (fuel : Nat) (a b : Int), 1 ≤ a → 1 ≤ b →
      a.toNat + b.toNat ≤ fuel →
      gcdAux fuel a b = some ((Int.gcd a b : Nat) : Int) := by
  intro fuel
  induction fuel with
  | zero => intro a b ha hb h; omega
  | succ fuel ih =>
    intro a b ha hb h
    show (if a = b then some a else if a > b then _ else _) = _
    by_cases heq : a = b
    · rw [if_pos heq, heq, Int.gcd_self]
      rw [Int.natAbs_of_nonneg (by omega)]
    · rw [if_neg heq]
      by_cases hgt : a > b
      · rw [if_pos hgt, ih (a - b) b (by omega) hb (by omega),
          int_gcd_sub_left]
      · rw [if_neg hgt, ih a (b - a) ha (by omega) (by omega),
          int_gcd_sub_right]

theorem gcd_pos (a b : Int) (ha : 1 ≤ a) (hb : 1 ≤ b) :
    gcd a b = some ((Int.gcd a b : Nat) : Int) :=
  gcdAux_pos _ a b ha hb (by omega)

theorem gcd_natCast (a b : Nat) (ha : 1 ≤ a) (hb : 1 ≤ b) :
    gcd (a : Int) (b : Int) = some ((Nat.gcd a b : Nat) : Int) := by
  rw [gcd_pos _ _ (by exact_mod_cast ha) (by exact_mod_cast hb),
    Int.gcd_natCast_natCast]

/-! ### Claim C9: gcd on a zero operand -/

/-- C9: the claim is correct about what a gcd must do and the code does not
do it.  When exactly one operand is zero the subtraction loop never changes
its state (n1 - 0 = n1), so the while loop of gcd never terminates: no step
budget is large enough, which the embedding reports as none.  The claim
gcd(3, 0) = 3 therefore fails against the code: the call diverges. -/
theorem gcd_zero_diverges :
    gcd 3 0 = none ∧ ∀ fuel : Nat, gcdAux fuel 3 0 = none := by
  constructor
  · decide
  · intro fuel
    induction fuel with
    | zero => rfl
    | succ fuel ih =>
      show (if (3 : Int) = 0 then _ else if (3 : Int) > 0 then _ else _) = _
      rw [if_neg (by decide), if_pos (by decide)]
      show gcdAux fuel (3 - 0) 0 = none
      norm_num
      exact ih

theorem inverseModulo_nonneg (a modulo : Int) : 0 ≤ inverseModulo a modulo :=
  invLoop_nonneg _ _ _ _

/-! ### Claim C3: calculateK, coprime branch -/

/-- C3 (amended): when gcd(s2, p-1) = 1 and additionally m is at least
x * s1, calculateK returns (modInverse(s2, p-1) * aux) mod (p-1) with aux
the residue of m - x * s1 in [0, p-2], and the result lies in [0, p-2].
The extra hypothesis is forced by the counterexample below: the coprime
branch multiplies the inverse by the raw difference m - x * s1 rather than
by the negative-safe aux it just computed, and reduces with the truncated
remainder, so a negative difference can make the result negative. -/
theorem calculateK_coprime (alpha beta p m s1 s2 x : Nat) (hp : 3 ≤ p)
    (hgcd : Nat.gcd s2 (p - 1) = 1) (hmx : x * s1 ≤ m) :
    ∃ k : Int,
      calculateK (alpha : Int) (beta : Int) (p : Int) (m : Int) (s1 : Int)
        (s2 : Int) (x : Int) = some k ∧
      k = inverseModulo (s2 : Int) ((p : Int) - 1) *
          (((m : Int) - (x : Int) * (s1 : Int)) % ((p : Int) - 1)) %
          ((p : Int) - 1) ∧
      0 ≤ k ∧ k ≤ (p : Int) - 2 := by
  have hs2 : 1 ≤ s2 := by
    rcases Nat.eq_zero_or_pos s2 with h | h
    · rw [h, Nat.gcd_zero_left] at hgcd; omega
    · omega
  have hcast : ((p - 1 : Nat) : Int) = (p : Int) - 1 := by omega
  have hgcdi : gcd (s2 : Int) ((p : Int) - 1) = some 1 := by
    rw [← hcast, gcd_natCast s2 (p - 1) hs2 (by omega), hgcd, Nat.cast_one]
  have hA : (0 : Int) ≤ (m : Int) - (x : Int) * (s1 : Int) := by
    have h1 : ((x * s1 : Nat) : Int) ≤ (m : Int) := by exact_mod_cast hmx
    push_cast at h1
    omega
  have hM2 : (2 : Int) ≤ (p : Int) - 1 := by omega
  have hinv : (0 : Int) ≤ inverseModulo (s2 : Int) ((p : Int) - 1) :=
    inverseModulo_nonneg _ _
  have hcal : calculateK (alpha : Int) (beta : Int) (p : Int) (m : Int)
      (s1 : Int) (s2 : Int) (x : Int) =
      some (fastModularExponentiation
        (inverseModulo (s2 : Int) ((p : Int) - 1) *
          ((m : Int) - (x : Int) * (s1 : Int))) 1 ((p : Int) - 1)) := by
    simp only [calculateK, hgcdi]
    rw [if_pos trivial]
  have hfme : fastModularExponentiation
      (inverseModulo (s2 : Int) ((p : Int) - 1) *
        ((m : Int) - (x : Int) * (s1 : Int))) 1 ((p : Int) - 1) =
      inverseModulo (s2 : Int) ((p : Int) - 1) *
        ((m : Int) - (x : Int) * (s1 : Int)) % ((p : Int) - 1) :=
    fme_one _ _ (mul_nonneg hinv hA) (by omega)
  refine ⟨_, hcal, ?_, ?_, ?_⟩
  · rw [hfme]
    conv_lhs => rw [Int.mul_emod]
    conv_rhs => rw [Int.mul_emod, Int.emod_emod_of_dvd _ dvd_rfl]
  · rw [hfme]
    exact Int.emod_nonneg _ (by omega)
  · rw [hfme]
    have := Int.emod_lt_of_pos
      (inverseModulo (s2 : Int) ((p : Int) - 1) *
        ((m : Int) - (x : Int) * (s1 : Int)))
      (show (0 : Int) < (p : Int) - 1 by omega)
    omega

/-- C3 witness: the amended statement evaluated at p = 5, m = 2, s1 = 1,
s2 = 3, x = 1, where the recovered nonce is 3 * 1 mod 4 = 3. -/
theorem calculateK_coprime_witness :
    (3 : Nat) ≤ 5 ∧ Nat.gcd 3 (5 - 1) = 1 ∧ 1 * 1 ≤ 2 ∧
    (∃ k : Int,
      calculateK (2 : Int) (2 : Int) (5 : Int) (2 : Int) (1 : Int) (3 : Int)
        (1 : Int) = some k ∧
      k = inverseModulo (3 : Int) ((5 : Int) - 1) *
          (((2 : Int) - (1 : Int) * (1 : Int)) % ((5 : Int) - 1)) %
          ((5 : Int) - 1) ∧
      0 ≤ k ∧ k ≤ (5 : Int) - 2) :=
  ⟨by decide, by decide, by decide,
    calculateK_coprime 2 2 5 2 1 3 1 (by decide) (by decide) (by decide)⟩

/-- C3 counterexample: at p = 5, m = 0, s1 = 1, s2 = 3, x = 1 the difference
m - x * s1 = -1 is negative; the claim's value (modInverse(3,4) * aux) mod 4
is 1 and lies in [0, 3], but the code returns -3. -/
theorem calculateK_negative_counterexample :
    calculateK 2 2 5 0 1 3 1 = some (-3) ∧
    inverseModulo (3 : Int) 4 * (((0 : Int) - 1 * 1) % 4) % 4 = 1 ∧
    ¬ (0 : Int) ≤ -3 := by decide

/-! ### The candidate loop of calculateK -/

theorem kLoop_found (alpha modulo s1 kt modulo2 : Int) :
    ∀ (r i0 i : Nat) (k : Int), i0 ≤ i → i < i0 + r →
      fastModularExponentiation alpha (kt + (i : Int) * modulo2).toNat
        modulo = s1 →
      (∀ j, i0 ≤ j → j < i →
        fastModularExponentiation alpha (kt + (j : Int) * modulo2).toNat
          modulo ≠ s1) →
      kLoop alpha modulo s1 kt modulo2 r i0 k = kt + (i : Int) * modulo2 := by
  intro r
  induction r with
  | zero => intro i0 i k h1 h2 _ _; omega
  | succ r ih =>
    intro i0 i k h1 h2 hpass hmin
    show (if _ then _ else _) = _
    rcases Nat.eq_or_lt_of_le h1 with heq | hlt
    · rw [← heq] at hpass
      rw [if_pos hpass, heq]
    · rw [if_neg (hmin i0 le_rfl hlt)]
      exact ih (i0 + 1) i _ hlt (by omega) hpass
        (fun j hj1 hj2 => hmin j (by omega) hj2)

theorem kLoop_exhaust (alpha modulo s1 kt modulo2 : Int) :
    ∀ (r i0 : Nat) (k : Int), 1 ≤ r →
      (∀ j, i0 ≤ j → j < i0 + r →
        fastModularExponentiation alpha (kt + (j : Int) * modulo2).toNat
          modulo ≠ s1) →
      kLoop alpha modulo s1 kt modulo2 r i0 k =
        kt + ((i0 + r - 1 : Nat) : Int) * modulo2 := by
  intro r
  induction r with
  | zero => intro i0 k h _; omega
  | succ r ih =>
    intro i0 k _ hnone
    show (if _ then _ else _) = _
    rw [if_neg (hnone i0 le_rfl (by omega))]
    cases r with
    | zero =>
      show kt + (i0 : Int) * modulo2 = kt + ((i0 + 1 - 1 : Nat) : Int) * modulo2
      norm_num
    | succ r =>
      rw [ih (i0 + 1) _ (by omega)
        (fun j hj1 hj2 => hnone j (by omega) (by omega))]
      congr 2
      omega

/-! ### Claim C4: calculateK, non-coprime branch -/

/-- C4 (amended): for positive s2 with c = gcd(s2, p-1) greater than 1,
calculateK enumerates exactly the c candidates kt + i * modulo2 for i from 1
to c in increasing order and returns the first candidate passing the check
alpha^k mod p = s1; when none of the c candidates passes, it does not signal
a failure: it returns the last computed, unverified candidate
kt + c * modulo2.  The last conjunct of the original claim is refuted by the
counterexample below; the positivity of s2 is needed because the gcd
subtraction loop diverges on s2 = 0. -/
theorem calculateK_noncoprime (alpha beta p m s1 s2 x : Nat) (hp : 3 ≤ p)
    (hs2 : 1 ≤ s2) (hc : 1 < Nat.gcd s2 (p - 1)) :
    ∃ modulo2 kt k : Int,
      modulo2 = ((p : Int) - 1).ediv (Nat.gcd s2 (p - 1) : Int) ∧
      kt = fastModularExponentiation
        ((if (m : Int) - (x : Int) * (s1 : Int) < 0 then
            negativeModulo ((m : Int) - (x : Int) * (s1 : Int)) ((p : Int) - 1)
          else
            fastModularExponentiation ((m : Int) - (x : Int) * (s1 : Int)) 1
              ((p : Int) - 1)).ediv (Nat.gcd s2 (p - 1) : Int) *
          inverseModulo ((s2 : Int).ediv (Nat.gcd s2 (p - 1) : Int)) modulo2)
        1 modulo2 ∧
      calculateK (alpha : Int) (beta : Int) (p : Int) (m : Int) (s1 : Int)
        (s2 : Int) (x : Int) = some k ∧
      ((∃ i : Nat, 1 ≤ i ∧ i ≤ Nat.gcd s2 (p - 1) ∧
          fastModularExponentiation (alpha : Int)
            (kt + (i : Int) * modulo2).toNat (p : Int) = (s1 : Int) ∧
          k = kt + (i : Int) * modulo2 ∧
          ∀ j : Nat, 1 ≤ j → j < i →
            fastModularExponentiation (alpha : Int)
              (kt + (j : Int) * modulo2).toNat (p : Int) ≠ (s1 : Int)) ∨
        ((∀ i : Nat, 1 ≤ i → i ≤ Nat.gcd s2 (p - 1) →
            fastModularExponentiation (alpha : Int)
              (kt + (i : Int) * modulo2).toNat (p : Int) ≠ (s1 : Int)) ∧
          k = kt + (Nat.gcd s2 (p - 1) : Int) * modulo2)) := by
  set c : Nat := Nat.gcd s2 (p - 1) with hcdef
  have hcast : ((p - 1 : Nat) : Int) = (p : Int) - 1 := by omega
  have hgcdi : gcd (s2 : Int) ((p : Int) - 1) = some ((c : Nat) : Int) := by
    rw [← hcast, gcd_natCast s2 (p - 1) hs2 (by omega)]
  have hcne : ((c : Nat) : Int) ≠ 1 := by
    rw [Ne, Nat.cast_eq_one]; omega
  have hcal : calculateK (alpha : Int) (beta : Int) (p : Int) (m : Int)
      (s1 : Int) (s2 : Int) (x : Int) =
      some (kLoop (alpha : Int) (p : Int) (s1 : Int)
        (fastModularExponentiation
          ((if (m : Int) - (x : Int) * (s1 : Int) < 0 then
              negativeModulo ((m : Int) - (x : Int) * (s1 : Int))
                ((p : Int) - 1)
            else
              fastModularExponentiation ((m : Int) - (x : Int) * (s1 : Int))
                1 ((p : Int) - 1)).ediv (c : Int) *
            inverseModulo ((s2 : Int).ediv (c : Int))
              (((p : Int) - 1).ediv (c : Int)))
          1 (((p : Int) - 1).ediv (c : Int)))
        (((p : Int) - 1).ediv (c : Int)) c 1 0) := by
    simp only [calculateK, hgcdi]
    rw [if_neg hcne, Int.toNat_natCast]
  set M2 : Int := ((p : Int) - 1).ediv (c : Int) with hM2def
  set KT : Int := fastModularExponentiation
    ((if (m : Int) - (x : Int) * (s1 : Int) < 0 then
        negativeModulo ((m : Int) - (x : Int) * (s1 : Int)) ((p : Int) - 1)
      else
        fastModularExponentiation ((m : Int) - (x : Int) * (s1 : Int)) 1
          ((p : Int) - 1)).ediv (c : Int) *
      inverseModulo ((s2 : Int).ediv (c : Int)) M2) 1 M2 with hKTdef
  refine ⟨M2, KT, kLoop (alpha : Int) (p : Int) (s1 : Int) KT M2 c 1 0,
    rfl, rfl, hcal, ?_⟩
  by_cases hex : ∃ i : Nat, 1 ≤ i ∧ i ≤ c ∧
    fastModularExponentiation (alpha : Int) (KT + (i : Int) * M2).toNat
      (p : Int) = (s1 : Int)
  · left
    obtain ⟨h1, h2, h3⟩ := Nat.find_spec hex
    refine ⟨Nat.find hex, h1, h2, h3, ?_, ?_⟩
    · exact kLoop_found (alpha : Int) (p : Int) (s1 : Int) KT M2 c 1
        (Nat.find hex) 0 h1 (by omega) h3
        (fun j hj1 hj2 hj3 => Nat.find_min hex hj2 ⟨hj1, by omega, hj3⟩)
    · intro j hj1 hj2 hj3
      exact Nat.find_min hex hj2 ⟨hj1, by omega, hj3⟩
  · right
    push_neg at hex
    have hall : ∀ i : Nat, 1 ≤ i → i ≤ c →
        fastModularExponentiation (alpha : Int) (KT + (i : Int) * M2).toNat
          (p : Int) ≠ (s1 : Int) := hex
    refine ⟨hall, ?_⟩
    rw [kLoop_exhaust (alpha : Int) (p : Int) (s1 : Int) KT M2 c 1 0
      (by omega) (fun j hj1 hj2 => hall j hj1 (by omega))]
    rw [show (1 + c - 1 : Nat) = c by omega]

/-! ### The giant-step table -/

theorem giantLoop_none (alpha modulo : Int) (n : Nat) :
    ∀ (j : Nat) (t : Int → Option Nat) (q : Int),
      (∀ i, 1 ≤ i → i ≤ j → giantStepKey alpha modulo n i ≠ q) →
      giantLoop alpha modulo n j t q = t q := by
  intro j
  induction j with
  | zero => intro t q _; rfl
  | succ j ih =>
    intro t q hno
    show giantLoop alpha modulo n j _ q = t q
    rw [ih _ q (fun i h1 h2 => hno i h1 (by omega))]
    unfold tableInsert
    rw [if_neg (fun h => hno (j + 1) (by omega) le_rfl h.symm)]

theorem giantLoop_found (alpha modulo : Int) (n : Nat) :
    ∀ (j : Nat) (t : Int → Option Nat) (i : Nat), 1 ≤ i → i ≤ j →
      (∀ u, 1 ≤ u → u < i →
        giantStepKey alpha modulo n u ≠ giantStepKey alpha modulo n i) →
      giantLoop alpha modulo n j t (giantStepKey alpha modulo n i) =
        some i := by
  intro j
  induction j with
  | zero => intro t i h1 h2 _; omega
  | succ j ih =>
    intro t i h1 h2 hmin
    rcases Nat.lt_or_ge i (j + 1) with hlt | hge
    · exact ih _ i h1 (by omega) hmin
    · have hij : i = j + 1 := by omega
      show giantLoop alpha modulo n j _ _ = some i
      rw [giantLoop_none alpha modulo n j _ _
        (fun u hu1 hu2 => hmin u hu1 (by omega))]
      unfold tableInsert
      rw [if_pos (by rw [hij]), hij]

theorem giantLoop_sound (alpha modulo : Int) (n : Nat) :
    ∀ (j : Nat) (t : Int → Option Nat) (q : Int) (v : Nat),
      giantLoop alpha modulo n j t q = some v →
      (1 ≤ v ∧ v ≤ j ∧ giantStepKey alpha modulo n v = q) ∨ t q = some v := by
  intro j
  induction j with
  | zero => intro t q v h; exact Or.inr h
  | succ j ih =>
    intro t q v h
    rcases ih _ q v h with h1 | h1
    · exact Or.inl ⟨h1.1, by omega, h1.2.2⟩
    · unfold tableInsert at h1
      by_cases hq : q = giantStepKey alpha modulo n (j + 1)
      · rw [if_pos hq] at h1
        have hv : j + 1 = v := by injection h1
        refine Or.inl ⟨by omega, by omega, ?_⟩
        rw [← hv]
        exact hq.symm
      · rw [if_neg hq] at h1
        exact Or.inr h1

theorem discreteLogTable_sound (alpha modulo : Int) (n : Nat) (q : Int)
    (v : Nat) (h : discreteLogTable alpha modulo n q = some v) :
    1 ≤ v ∧ v ≤ n ∧ giantStepKey alpha modulo n v = q := by
  rcases giantLoop_sound alpha modulo n n _ q v h with h1 | h1
  · exact h1
  · exact absurd h1 (by simp)

theorem discreteLogTable_mem (alpha modulo : Int) (n : Nat) (i : Nat)
    (h1 : 1 ≤ i) (h2 : i ≤ n) :
    ∃ v, discreteLogTable alpha modulo n (giantStepKey alpha modulo n i) =
        some v ∧ 1 ≤ v ∧ v ≤ i ∧
      giantStepKey alpha modulo n v = giantStepKey alpha modulo n i := by
  have hex : ∃ w, 1 ≤ w ∧
      giantStepKey alpha modulo n w = giantStepKey alpha modulo n i :=
    ⟨i, h1, rfl⟩
  set w := Nat.find hex with hw
  obtain ⟨hw1, hwk⟩ := Nat.find_spec hex
  have hwle : w ≤ i := Nat.find_min' hex ⟨h1, rfl⟩
  refine ⟨w, ?_, hw1, hwle, hwk⟩
  rw [← hwk]
  refine giantLoop_found alpha modulo n n _ w hw1 (by omega) ?_
  intro u hu1 hu2 huk
  exact Nat.find_min hex hu2 ⟨hu1, by rw [huk, hwk]⟩

theorem discreteLogTable_min (alpha modulo : Int) (n : Nat) (q : Int)
    (v : Nat) (hv : discreteLogTable alpha modulo n q = some v)
    (u : Nat) (hu1 : 1 ≤ u) (hu2 : u ≤ n)
    (huk : giantStepKey alpha modulo n u = q) : v ≤ u := by
  obtain ⟨w, hwt, _, hwle, hwk⟩ := discreteLogTable_mem alpha modulo n u hu1 hu2
  rw [huk] at hwt
  rw [hwt] at hv
  have : w = v := by injection hv
  omega

/-! ### Claim C8: collision resolution in the giant-step table -/

/-- C8 (amended): the loop for (let i = n; i >= 1; i--) writes the giant
steps in decreasing order of i, so a later write carries a smaller index:
when several indices in [1, n] share a key, the entry consulted by the
baby-step scan stores the smallest such index, not the largest.  The
counterexample below refutes the claimed direction. -/
theorem discreteLogTable_collision (alpha modulo : Int) (q : Int) (v u : Nat)
    (hv : discreteLogTable alpha modulo (intSqrt modulo.toNat + 1) q = some v)
    (hu1 : 1 ≤ u) (hu2 : u ≤ intSqrt modulo.toNat + 1)
    (huk : giantStepKey alpha modulo (intSqrt modulo.toNat + 1) u = q) :
    1 ≤ v ∧ v ≤ intSqrt modulo.toNat + 1 ∧
    giantStepKey alpha modulo (intSqrt modulo.toNat + 1) v = q ∧ v ≤ u := by
  obtain ⟨h1, h2, h3⟩ := discreteLogTable_sound alpha modulo _ q v hv
  exact ⟨h1, h2, h3, discreteLogTable_min alpha modulo _ q v hv u hu1 hu2 huk⟩

/-- C8 witness: for alpha = 6, modulo = 7 (n = 3) the key 6 is shared by the
giant steps 1 and 3, and the stored entry is the smaller index 1. -/
theorem discreteLogTable_collision_witness :
    discreteLogTable 6 7 (intSqrt (7 : Int).toNat + 1) 6 = some 1 ∧
    (1 : Nat) ≤ 3 ∧ (3 : Nat) ≤ intSqrt (7 : Int).toNat + 1 ∧
    giantStepKey 6 7 (intSqrt (7 : Int).toNat + 1) 3 = 6 ∧
    (1 ≤ 1 ∧ 1 ≤ intSqrt (7 : Int).toNat + 1 ∧
      giantStepKey 6 7 (intSqrt (7 : Int).toNat + 1) 1 = 6 ∧ (1 : Nat) ≤ 3) :=
  ⟨by decide, by decide, by decide, by decide,
    discreteLogTable_collision 6 7 6 1 3 (by decide) (by decide) (by decide)
      (by decide)⟩

/-- C8 counterexample: indices 1 and 3 collide on key 6 for alpha = 6,
modulo = 7, and the consulted entry stores the lower index 1, not the higher
index 3 the claim demands. -/
theorem discreteLogTable_lowest_counterexample :
    giantStepKey 6 7 (intSqrt (7 : Int).toNat + 1) 1 =
      giantStepKey 6 7 (intSqrt (7 : Int).toNat + 1) 3 ∧
    (1 : Nat) < 3 ∧
    discreteLogTable 6 7 (intSqrt (7 : Int).toNat + 1)
      (giantStepKey 6 7 (intSqrt (7 : Int).toNat + 1) 3) = some 1 ∧
    discreteLogTable 6 7 (intSqrt (7 : Int).toNat + 1)
      (giantStepKey 6 7 (intSqrt (7 : Int).toNat + 1) 3) ≠ some 3 := by
  decide

/-! ### The baby-step scan -/

theorem babyLoop_succ (alpha beta modulo : Int) (n : Nat)
    (t : Int → Option Nat) (r i0 : Nat) :
    babyLoop alpha beta modulo n t (r + 1) i0 =
      if 0 < (t (babyStepKey alpha beta modulo i0)).getD 0 then
        if ((t (babyStepKey alpha beta modulo i0)).getD 0 : Int) * (n : Int) -
            (i0 : Int) < modulo then
          ((t (babyStepKey alpha beta modulo i0)).getD 0 : Int) * (n : Int) -
            (i0 : Int)
        else babyLoop alpha beta modulo n t r (i0 + 1)
      else babyLoop alpha beta modulo n t r (i0 + 1) := rfl

theorem babyLoop_sound (alpha beta modulo : Int) (n : Nat)
    (t : Int → Option Nat) :
    ∀ (r i0 : Nat), babyLoop alpha beta modulo n t r i0 ≠ -1 →
      ∃ (j v : Nat), i0 ≤ j ∧ j < i0 + r ∧
        t (babyStepKey alpha beta modulo j) = some v ∧ 0 < v ∧
        (v : Int) * (n : Int) - (j : Int) < modulo ∧
        babyLoop alpha beta modulo n t r i0 =
          (v : Int) * (n : Int) - (j : Int) := by
  intro r
  induction r with
  | zero => intro i0 h; exact absurd rfl h
  | succ r ih =>
    intro i0 h
    rw [babyLoop_succ] at h ⊢
    rcases ht : t (babyStepKey alpha beta modulo i0) with _ | v
    · rw [ht] at h
      rw [Option.getD_none] at h ⊢
      rw [if_neg (by norm_num)] at h ⊢
      obtain ⟨j, v, hj1, hj2, hjt, hjv, hjlt, hjeq⟩ := ih (i0 + 1) h
      exact ⟨j, v, by omega, by omega, hjt, hjv, hjlt, hjeq⟩
    · rw [ht] at h
      rw [Option.getD_some] at h ⊢
      by_cases hv : 0 < v
      · rw [if_pos hv] at h ⊢
        by_cases hlt : (v : Int) * (n : Int) - (i0 : Int) < modulo
        · rw [if_pos hlt] at h ⊢
          exact ⟨i0, v, le_rfl, by omega, ht, hv, hlt, rfl⟩
        · rw [if_neg hlt] at h ⊢
          obtain ⟨j, w, hj1, hj2, hjt, hjv, hjlt, hjeq⟩ := ih (i0 + 1) h
          exact ⟨j, w, by omega, by omega, hjt, hjv, hjlt, hjeq⟩
      · rw [if_neg hv] at h ⊢
        obtain ⟨j, w, hj1, hj2, hjt, hjv, hjlt, hjeq⟩ := ih (i0 + 1) h
        exact ⟨j, w, by omega, by omega, hjt, hjv, hjlt, hjeq⟩

theorem babyLoop_mem (alpha beta modulo : Int) (n : Nat)
    (t : Int → Option Nat) :
    ∀ (r i0 j v : Nat), i0 ≤ j → j < i0 + r →
      t (babyStepKey alpha beta modulo j) = some v → 0 < v →
      (v : Int) * (n : Int) - (j : Int) < modulo →
      ∃ (j' v' : Nat), i0 ≤ j' ∧ j' < i0 + r ∧
        t (babyStepKey alpha beta modulo j') = some v' ∧ 0 < v' ∧
        (v' : Int) * (n : Int) - (j' : Int) < modulo ∧
        babyLoop alpha beta modulo n t r i0 =
          (v' : Int) * (n : Int) - (j' : Int) := by
  intro r
  induction r with
  | zero => intro i0 j v h1 h2 _ _ _; omega
  | succ r ih =>
    intro i0 j v h1 h2 hjt hjv hjlt
    rw [babyLoop_succ]
    rcases ht : t (babyStepKey alpha beta modulo i0) with _ | v0
    · rw [Option.getD_none, if_neg (by norm_num)]
      have hne : j ≠ i0 := fun he => by rw [he, ht] at hjt; cases hjt
      obtain ⟨j', v', h1', h2', ht', hv', hlt', heq'⟩ :=
        ih (i0 + 1) j v (by omega) (by omega) hjt hjv hjlt
      exact ⟨j', v', by omega, by omega, ht', hv', hlt', heq'⟩
    · rw [Option.getD_some]
      by_cases hv0 : 0 < v0
      · rw [if_pos hv0]
        by_cases hlt0 : (v0 : Int) * (n : Int) - (i0 : Int) < modulo
        · rw [if_pos hlt0]
          exact ⟨i0, v0, le_rfl, by omega, ht, hv0, hlt0, rfl⟩
        · rw [if_neg hlt0]
          have hne : j ≠ i0 := by
            intro he
            rw [he, ht] at hjt
            have hvv : v0 = v := by injection hjt
            rw [hvv] at hlt0
            rw [he] at hjlt
            exact hlt0 hjlt
          obtain ⟨j', v', h1', h2', ht', hv', hlt', heq'⟩ :=
            ih (i0 + 1) j v (by omega) (by omega) hjt hjv hjlt
          exact ⟨j', v', by omega, by omega, ht', hv', hlt', heq'⟩
      · rw [if_neg hv0]
        have hne : j ≠ i0 := by
          intro he
          rw [he, ht] at hjt
          have hvv : v0 = v := by injection hjt
          rw [hvv] at hv0
          exact hv0 hjv
        obtain ⟨j', v', h1', h2', ht', hv', hlt', heq'⟩ :=
          ih (i0 + 1) j v (by omega) (by omega) hjt hjv hjlt
        exact ⟨j', v', by omega, by omega, ht', hv', hlt', heq'⟩

theorem discreteLogarithm_eq (alpha beta modulo : Int) :
    discreteLogarithm alpha beta modulo =
      babyLoop alpha beta modulo (intSqrt modulo.toNat + 1)
        (discreteLogTable alpha modulo (intSqrt modulo.toNat + 1))
        (intSqrt modulo.toNat + 1) 0 := rfl

/-- C4 witness: the amended statement evaluated at alpha = 2, p = 5, m = 0,
s1 = 4, s2 = 2, x = 0, where c = 2 and the first candidate 2 already passes
the check 2 ^ 2 mod 5 = 4. -/
theorem calculateK_noncoprime_witness :
    (3 : Nat) ≤ 5 ∧ (1 : Nat) ≤ 2 ∧ 1 < Nat.gcd 2 (5 - 1) ∧
    (∃ modulo2 kt k : Int,
      modulo2 = ((5 : Int) - 1).ediv (Nat.gcd 2 (5 - 1) : Int) ∧
      kt = fastModularExponentiation
        ((if (0 : Int) - (0 : Int) * (4 : Int) < 0 then
            negativeModulo ((0 : Int) - (0 : Int) * (4 : Int)) ((5 : Int) - 1)
          else
            fastModularExponentiation ((0 : Int) - (0 : Int) * (4 : Int)) 1
              ((5 : Int) - 1)).ediv (Nat.gcd 2 (5 - 1) : Int) *
          inverseModulo ((2 : Int).ediv (Nat.gcd 2 (5 - 1) : Int)) modulo2)
        1 modulo2 ∧
      calculateK (2 : Int) (0 : Int) (5 : Int) (0 : Int) (4 : Int) (2 : Int)
        (0 : Int) = some k ∧
      ((∃ i : Nat, 1 ≤ i ∧ i ≤ Nat.gcd 2 (5 - 1) ∧
          fastModularExponentiation (2 : Int)
            (kt + (i : Int) * modulo2).toNat (5 : Int) = (4 : Int) ∧
          k = kt + (i : Int) * modulo2 ∧
          ∀ j : Nat, 1 ≤ j → j < i →
            fastModularExponentiation (2 : Int)
              (kt + (j : Int) * modulo2).toNat (5 : Int) ≠ (4 : Int)) ∨
        ((∀ i : Nat, 1 ≤ i → i ≤ Nat.gcd 2 (5 - 1) →
            fastModularExponentiation (2 : Int)
              (kt + (i : Int) * modulo2).toNat (5 : Int) ≠ (4 : Int)) ∧
          k = kt + (Nat.gcd 2 (5 - 1) : Int) * modulo2))) :=
  ⟨by decide, by decide, by decide,
    calculateK_noncoprime 2 0 5 0 4 2 0 (by decide) (by decide) (by decide)⟩

/-- C4 counterexample: at alpha = 2, p = 5, m = 1, s1 = 3, s2 = 1, x = 0 the
branch parameters are c = 2, modulo2 = 2, kt = 0, the two candidates are 2
and 4, neither passes the check against s1 = 3 (the powers are 4 and 1), yet
calculateK returns the value 4 instead of signalling NonceRecoveryFailed. -/
theorem calculateK_unverified_counterexample :
    calculateK 2 0 5 1 3 2 0 = some 4 ∧
    fastModularExponentiation 2 2 5 ≠ 3 ∧
    fastModularExponentiation 2 4 5 ≠ 3 := by decide

/-! ### Cast forms of the two key computations -/

theorem giantStepKey_natCast (a p' : Nat) (n i : Nat) (hp' : 2 ≤ p') :
    giantStepKey (a : Int) (p' : Int) n i =
      ((a ^ (i * n) % p' : Nat) : Int) := by
  unfold giantStepKey
  exact fme_natCast a (i * n) p' hp'

theorem babyStepKey_natCast (a b p' : Nat) (hp' : 2 ≤ p') (i : Nat) :
    babyStepKey (a : Int) (b : Int) (p' : Int) i =
      ((a ^ i * b % p' : Nat) : Int) := by
  unfold babyStepKey
  rw [fme_natCast a i p' hp']
  rw [show ((a ^ i % p' : Nat) : Int) * (b : Int) =
      ((a ^ i % p' * b : Nat) : Int) by push_cast; ring]
  rw [Int.tmod_eq_emod (Int.natCast_nonneg _) (Int.natCast_nonneg _),
    ← Int.natCast_mod, Nat.mod_mul_mod]

/-! ### Claim C10: soundness of discreteLogarithm -/

/-- C10 (confirmed): for prime p, alpha in [1, p) coprime to p and beta in
[0, p), any value other than the sentinel -1 returned by discreteLogarithm
is a true discrete logarithm of beta in the range [1, p); in particular the
function never returns 0.  Every accepted answer has the shape
v * n - i with a stored index v at least 1 and i below n, so it is at least
1, the scan checks it is below p, and the table equation cancels through the
coprime power of alpha. -/
theorem discreteLogarithm_sound (alpha beta p : Nat) (hp : Nat.Prime p)
    (ha1 : 1 ≤ alpha) (ha2 : alpha < p) (hco : Nat.gcd alpha p = 1)
    (hb : beta < p) :
    (discreteLogarithm (alpha : Int) (beta : Int) (p : Int) ≠ -1 →
      1 ≤ discreteLogarithm (alpha : Int) (beta : Int) (p : Int) ∧
      discreteLogarithm (alpha : Int) (beta : Int) (p : Int) < (p : Int) ∧
      alpha ^ (discreteLogarithm (alpha : Int) (beta : Int) (p : Int)).toNat
        % p = beta) ∧
    discreteLogarithm (alpha : Int) (beta : Int) (p : Int) ≠ 0 := by
  have hp2 : 2 ≤ p := hp.two_le
  set n : Nat := intSqrt p + 1 with hn
  have hDL : discreteLogarithm (alpha : Int) (beta : Int) (p : Int) =
      babyLoop (alpha : Int) (beta : Int) (p : Int) n
        (discreteLogTable (alpha : Int) (p : Int) n) n 0 := by
    rw [hn, discreteLogarithm_eq, Int.toNat_natCast]
  have hmain : discreteLogarithm (alpha : Int) (beta : Int) (p : Int) ≠ -1 →
      1 ≤ discreteLogarithm (alpha : Int) (beta : Int) (p : Int) ∧
      discreteLogarithm (alpha : Int) (beta : Int) (p : Int) < (p : Int) ∧
      alpha ^ (discreteLogarithm (alpha : Int) (beta : Int) (p : Int)).toNat
        % p = beta := by
    intro hne
    rw [hDL] at hne
    obtain ⟨j, v, h0j, hjn, ht, hv0, hlt, heq⟩ :=
      babyLoop_sound (alpha : Int) (beta : Int) (p : Int) n _ n 0 hne
    obtain ⟨hv1, hvn, hkey⟩ :=
      discreteLogTable_sound (alpha : Int) (p : Int) n _ v ht
    rw [giantStepKey_natCast alpha p n v hp2,
      babyStepKey_natCast alpha beta p hp2 j] at hkey
    have hnat : alpha ^ (v * n) % p = alpha ^ j * beta % p := by
      exact_mod_cast hkey
    have hjvn : j < v * n :=
      lt_of_lt_of_le (by omega) (Nat.le_mul_of_pos_left n (by omega))
    set d := v * n - j with hd
    have hdpos : 1 ≤ d := by omega
    have hvnd : v * n = j + d := by omega
    have hmodeq : Nat.ModEq p (alpha ^ j * alpha ^ d) (alpha ^ j * beta) := by
      rw [← pow_add, ← hvnd]
      exact hnat
    have hcop : Nat.gcd p (alpha ^ j) = 1 :=
      Nat.Coprime.symm (Nat.Coprime.pow_left j hco)
    have hfin : Nat.ModEq p (alpha ^ d) beta :=
      Nat.ModEq.cancel_left_of_coprime hcop hmodeq
    have hbm : alpha ^ d % p = beta := by
      unfold Nat.ModEq at hfin
      rw [hfin, Nat.mod_eq_of_lt hb]
    have hdc : ((d : Nat) : Int) = (v : Int) * (n : Int) - (j : Int) := by
      rw [hd, Int.natCast_sub (by omega)]
      push_cast
      ring
    have hDeq : discreteLogarithm (alpha : Int) (beta : Int) (p : Int) =
        ((d : Nat) : Int) := by
      rw [hDL, heq, hdc]
    refine ⟨?_, ?_, ?_⟩
    · rw [hDeq]
      exact_mod_cast hdpos
    · rw [hDL, heq]
      exact hlt
    · rw [hDeq, Int.toNat_natCast]
      exact hbm
  refine ⟨hmain, ?_⟩
  intro h0
  have hres := hmain (by rw [h0]; decide)
  rw [h0] at hres
  exact absurd hres.1 (by decide)

/-- C10 witness: the soundness statement evaluated at alpha = 2, beta = 7,
p = 11, where the function returns 7 and 2 ^ 7 mod 11 = 7. -/
theorem discreteLogarithm_sound_witness :
    Nat.Prime 11 ∧ (1 : Nat) ≤ 2 ∧ (2 : Nat) < 11 ∧ Nat.gcd 2 11 = 1 ∧
    (7 : Nat) < 11 ∧
    ((discreteLogarithm ((2 : Nat) : Int) ((7 : Nat) : Int)
        ((11 : Nat) : Int) ≠ -1 →
      1 ≤ discreteLogarithm ((2 : Nat) : Int) ((7 : Nat) : Int)
        ((11 : Nat) : Int) ∧
      discreteLogarithm ((2 : Nat) : Int) ((7 : Nat) : Int)
        ((11 : Nat) : Int) < ((11 : Nat) : Int) ∧
      2 ^ (discreteLogarithm ((2 : Nat) : Int) ((7 : Nat) : Int)
        ((11 : Nat) : Int)).toNat % 11 = 7) ∧
    discreteLogarithm ((2 : Nat) : Int) ((7 : Nat) : Int)
      ((11 : Nat) : Int) ≠ 0) :=
  ⟨by decide, by decide, by decide, by decide, by decide,
    discreteLogarithm_sound 2 7 11 (by decide) (by decide) (by decide)
      (by decide) (by decide)⟩

/-! ### Claim C2: the discrete-logarithm round trip -/

/-- C2 (amended): for prime p, a primitive root alpha with 1 < alpha < p
(stated as: the order of alpha in ZMod p is p - 1) and a private key x with
1 <= x < p - 1, computing beta = modPow(alpha, x, p) and then
discreteLogarithm(alpha, beta, p) recovers exactly x.  The restriction
x >= 1 is forced by the counterexample below: every answer the scan can
accept has the form v * n - i with v >= 1 and i < n, hence is at least 1,
so the key x = 0 is never recovered (for x = 0 and the data of the
counterexample the function returns p - 1 instead).  The primitivity of
alpha is what makes the recovered exponent unique in [1, p - 1); for alpha
of smaller order the scan returns a witness congruent to x modulo the order
rather than x itself. -/
theorem discreteLogarithm_roundtrip (p alpha x : Nat) (hp : Nat.Prime p)
    (ha1 : 1 < alpha) (ha2 : alpha < p) (hx1 : 1 ≤ x) (hx2 : x < p - 1)
    (hord : orderOf ((alpha : Nat) : ZMod p) = p - 1) :
    discreteLogarithm (alpha : Int)
      (fastModularExponentiation (alpha : Int) x (p : Int)) (p : Int) =
      ((x : Nat) : Int) := by
  have hp2 : 2 ≤ p := hp.two_le
  have hp3 : 3 ≤ p := by omega
  set n : Nat := intSqrt p + 1 with hn
  have hnn : p < n * n := by rw [hn]; exact lt_intSqrt_succ_sq p
  have hn1 : 1 ≤ n := by omega
  set b : Nat := alpha ^ x % p with hbdef
  have hbeta : fastModularExponentiation (alpha : Int) x (p : Int) =
      ((b : Nat) : Int) := by
    rw [hbdef]; exact fme_natCast alpha x p hp2
  have hnd : ¬ p ∣ alpha := by
    intro hdvd
    have := Nat.le_of_dvd (by omega) hdvd
    omega
  have hcop : Nat.Coprime alpha p :=
    Nat.Coprime.symm ((hp.coprime_iff_not_dvd).mpr hnd)
  set u : (ZMod p)ˣ := ZMod.unitOfCoprime alpha hcop with hu
  have huval : (u : ZMod p) = ((alpha : Nat) : ZMod p) := by
    rw [hu]; exact ZMod.coe_unitOfCoprime alpha hcop
  have huord : orderOf u = p - 1 := by
    rw [← huval] at hord
    rwa [orderOf_units] at hord
  have hbridge : ∀ a c : Nat,
      alpha ^ a % p = alpha ^ c % p ↔ a ≡ c [MOD p - 1] := by
    intro a c
    constructor
    · intro h
      have h1 : ((alpha ^ a : Nat) : ZMod p) = ((alpha ^ c : Nat) : ZMod p) :=
        (ZMod.natCast_eq_natCast_iff _ _ _).mpr h
      rw [Nat.cast_pow, Nat.cast_pow, ← huval, ← Units.val_pow_eq_pow_val,
        ← Units.val_pow_eq_pow_val] at h1
      have h2 : u ^ a = u ^ c := Units.ext h1
      have h3 := pow_eq_pow_iff_modEq.mp h2
      rwa [huord] at h3
    · intro h
      have h2 : u ^ a = u ^ c := pow_eq_pow_iff_modEq.mpr (by rwa [huord])
      have h1 : ((alpha ^ a : Nat) : ZMod p) =
          ((alpha ^ c : Nat) : ZMod p) := by
        rw [Nat.cast_pow, Nat.cast_pow, ← huval, ← Units.val_pow_eq_pow_val,
          ← Units.val_pow_eq_pow_val, h2]
      exact (ZMod.natCast_eq_natCast_iff _ _ _).mp h1
  have haccept : ∀ (j v : Nat), j < n →
      discreteLogTable (alpha : Int) (p : Int) n
        (babyStepKey (alpha : Int) (b : Int) (p : Int) j) = some v →
      0 < v → (v : Int) * (n : Int) - (j : Int) < (p : Int) →
      (v : Int) * (n : Int) - (j : Int) = ((x : Nat) : Int) := by
    intro j v hj ht hv0 hlt
    obtain ⟨hv1, hvn, hkey⟩ :=
      discreteLogTable_sound (alpha : Int) (p : Int) n _ v ht
    rw [giantStepKey_natCast alpha p n v hp2,
      babyStepKey_natCast alpha b p hp2 j] at hkey
    have hnat : alpha ^ (v * n) % p = alpha ^ j * b % p := by
      exact_mod_cast hkey
    have hright : alpha ^ j * b % p = alpha ^ (j + x) % p := by
      rw [hbdef, Nat.mul_mod_mod, ← pow_add]
    have hmodeq : (v * n) ≡ (j + x) [MOD p - 1] :=
      (hbridge (v * n) (j + x)).mp (hnat.trans hright)
    have hdvd : ((p - 1 : Nat) : Int) ∣
        ((j + x : Nat) : Int) - ((v * n : Nat) : Int) :=
      Nat.ModEq.dvd hmodeq
    have hd2 : ((p - 1 : Nat) : Int) ∣
        ((v : Int) * (n : Int) - (j : Int)) - ((x : Nat) : Int) := by
      have heq2 : ((v : Int) * (n : Int) - (j : Int)) - ((x : Nat) : Int) =
          -(((j + x : Nat) : Int) - ((v * n : Nat) : Int)) := by
        push_cast
        ring
      rw [heq2]
      exact dvd_neg.mpr hdvd
    have hvint : (1 : Int) ≤ (v : Int) := by exact_mod_cast hv1
    have hnint : ((n : Nat) : Int) ≤ (v : Int) * (n : Int) :=
      le_mul_of_one_le_left (by positivity) hvint
    have hjint : ((j : Nat) : Int) < ((n : Nat) : Int) := by exact_mod_cast hj
    have hxup : ((x : Nat) : Int) ≤ (p : Int) - 2 := by omega
    have hxlo : (1 : Int) ≤ ((x : Nat) : Int) := by exact_mod_cast hx1
    have hplow : ((p - 1 : Nat) : Int) = (p : Int) - 1 := by omega
    have hzero : ((v : Int) * (n : Int) - (j : Int)) - ((x : Nat) : Int) = 0 := by
      apply Int.eq_zero_of_abs_lt_dvd hd2
      rw [abs_lt, hplow]
      constructor <;> linarith
    exact sub_eq_zero.mp hzero
  obtain ⟨y, hxeq0⟩ := Nat.exists_eq_add_of_le hx1
  have hxeq : x = y + 1 := by omega
  set v0 : Nat := y / n + 1 with hv0def
  have hv0pos : 1 ≤ v0 := by
    rw [hv0def]
    exact Nat.le_add_left 1 (y / n)
  have hA : v0 * n = y / n * n + n := by rw [hv0def]; ring
  have hlow : y < y / n * n + n := Nat.lt_div_mul_add (by omega)
  have hxle : x ≤ v0 * n := by
    rw [hA, hxeq]
    exact Nat.succ_le_of_lt hlow
  have hup : v0 * n ≤ y + n := by
    rw [hA]
    exact Nat.add_le_add_right (Nat.div_mul_le_self y n) n
  set j0 : Nat := v0 * n - x with hj0def
  have hj0x : j0 + x = v0 * n := by rw [hj0def]; exact Nat.sub_add_cancel hxle
  have h8 : j0 + x ≤ y + n := by rw [hj0x]; exact hup
  have hj0n : j0 < n := by omega
  have hv0le : v0 ≤ n := by
    by_contra hcon
    push_neg at hcon
    have h3 : (n + 1) * n ≤ v0 * n := Nat.mul_le_mul_right n (by omega)
    have h9 : (n + 1) * n ≤ y + n := le_trans h3 hup
    have h10 : (n + 1) * n = n * n + n := by ring
    rw [h10] at h9
    have h11 : n * n ≤ y := Nat.le_of_add_le_add_right h9
    have h12 : y < p := by omega
    have h13 : n * n < p := lt_of_le_of_lt h11 h12
    exact absurd (lt_trans hnn h13) (lt_irrefl p)
  have hkeyeq : babyStepKey (alpha : Int) (b : Int) (p : Int) j0 =
      giantStepKey (alpha : Int) (p : Int) n v0 := by
    rw [babyStepKey_natCast alpha b p hp2 j0,
      giantStepKey_natCast alpha p n v0 hp2]
    congr 1
    rw [hbdef, Nat.mul_mod_mod, ← pow_add, hj0x]
  obtain ⟨v', hT, hv'1, hv'le, hv'key⟩ :=
    discreteLogTable_mem (alpha : Int) (p : Int) n v0 hv0pos hv0le
  have hTj0 : discreteLogTable (alpha : Int) (p : Int) n
      (babyStepKey (alpha : Int) (b : Int) (p : Int) j0) = some v' := by
    rw [hkeyeq]; exact hT
  have h6 : (v0 : Int) * (n : Int) - ((j0 : Nat) : Int) = ((x : Nat) : Int) := by
    have h7 : ((j0 : Nat) : Int) + ((x : Nat) : Int) =
        ((v0 : Nat) : Int) * ((n : Nat) : Int) := by exact_mod_cast hj0x
    linarith
  have hacc : (v' : Int) * (n : Int) - ((j0 : Nat) : Int) < (p : Int) := by
    have h5 : (v' : Int) * (n : Int) ≤ (v0 : Int) * (n : Int) :=
      mul_le_mul_of_nonneg_right (by exact_mod_cast hv'le) (by positivity)
    have hxp : ((x : Nat) : Int) < (p : Int) := by
      have : x < p := by omega
      exact_mod_cast this
    linarith
  obtain ⟨j', v'', hj'0, hj'n, hT', hv''0, hlt', heq'⟩ :=
    babyLoop_mem (alpha : Int) (b : Int) (p : Int) n
      (discreteLogTable (alpha : Int) (p : Int) n) n 0 j0 v'
      (by omega) (by omega) hTj0 (by omega) hacc
  have hval := haccept j' v'' (by omega) hT' hv''0 hlt'
  rw [hbeta]
  have hDL : discreteLogarithm (alpha : Int) (b : Int) (p : Int) =
      babyLoop (alpha : Int) (b : Int) (p : Int) n
        (discreteLogTable (alpha : Int) (p : Int) n) n 0 := by
    rw [hn, discreteLogarithm_eq, Int.toNat_natCast]
  rw [hDL, heq', hval]

/-- C2 witness: the amended round trip evaluated at p = 11, alpha = 2
(a primitive root mod 11), x = 7: beta = 2 ^ 7 mod 11 = 7 and the solver
returns exactly 7. -/
theorem discreteLogarithm_roundtrip_witness :
    Nat.Prime 11 ∧ (1 : Nat) < 2 ∧ (2 : Nat) < 11 ∧ (1 : Nat) ≤ 7 ∧
    (7 : Nat) < 11 - 1 ∧ orderOf ((2 : Nat) : ZMod 11) = 11 - 1 ∧
    discreteLogarithm ((2 : Nat) : Int)
      (fastModularExponentiation ((2 : Nat) : Int) 7 ((11 : Nat) : Int))
      ((11 : Nat) : Int) = ((7 : Nat) : Int) :=
  ⟨by decide, by decide, by decide, by decide, by decide,
    (orderOf_eq_iff (by decide)).mpr ⟨by decide, by decide⟩,
    discreteLogarithm_roundtrip 11 2 7 (by decide) (by decide) (by decide)
      (by decide) (by decide)
      ((orderOf_eq_iff (by decide)).mpr ⟨by decide, by decide⟩)⟩

/-- C2 counterexample: at p = 11, alpha = 2, x = 0 all the original claim's
hypotheses hold (11 is prime, 1 < 2 < 11, 0 is in [0, p - 1)), beta is
2 ^ 0 mod 11 = 1, yet the solver returns 10, not 0: the round trip fails on
the key 0. -/
theorem discreteLogarithm_zero_key_counterexample :
    Nat.Prime 11 ∧ (1 : Nat) < 2 ∧ (2 : Nat) < 11 ∧ (0 : Nat) < 11 - 1 ∧
    discreteLogarithm ((2 : Nat) : Int)
      (fastModularExponentiation ((2 : Nat) : Int) 0 ((11 : Nat) : Int))
      ((11 : Nat) : Int) = 10 ∧ (10 : Int) ≠ ((0 : Nat) : Int) := by
  decide


end Elgamal
